import Mathlib

/-!
Verification of the Mandelbrot renderer in `src/main.c`.

The C program works with `double` arithmetic; every operation the kernels
perform is a field operation (`+`, `-`, `*`, `/`) or an order comparison,
so the algorithms are embedded over `ℚ` (exact arithmetic).  Loop counters
and pixel indices are `ℕ`.  The transcendental colour map (`sin`) is
embedded over `ℝ`.

Definitions are translated directly from the source:
* `get_color`            — src/main.c lines 54-65
* `periodicity_check`    — src/main.c lines 72-83
* `start_y`, `end_y`     — src/main.c lines 94-95
* `x_scale`, `y_scale`, `pixel_cr`, `pixel_ci` — src/main.c lines 104-106, 120-124, 186-187
* `vectorAux`/`vectorKernel` — the SSE2 loop, src/main.c lines 134-166
* `escapeAux`/`escape_iterations` — the scalar loop, src/main.c lines 195-205
* `simdRowWritesAux`/`simdRowWrites` — the write indices of the SSE2 row
  loop, src/main.c lines 122-132 and 168-174
* `applyClick`, `frame`  — the event handling / zoom decay of `main`,
  src/main.c lines 256-279
-/

/-- `MAX_ITERATIONS` from src/main.c line 28. -/
def MAX_ITERATIONS : ℕ := 255

/-- One Mandelbrot update `z ← z² + c` on real/imaginary parts, as both
loops in src/main.c compute it (`zr' = zr²-zi²+cr`, `zi' = 2·zr·zi+ci`,
the C code saving `zr2`, `zi2` first so the update is simultaneous). -/
def mandelStep (cr ci : ℚ) (p : ℚ × ℚ) : ℚ × ℚ :=
  (p.1 * p.1 - p.2 * p.2 + cr, 2 * p.1 * p.2 + ci)

/-- Squared magnitude `zr² + zi²`. -/
def mag2 (p : ℚ × ℚ) : ℚ := p.1 * p.1 + p.2 * p.2

/-- The orbit of the critical point `0` under `z ← z² + c`; both kernels
walk this orbit. -/
def orbit (cr ci : ℚ) (n : ℕ) : ℚ × ℚ := (mandelStep cr ci)^[n] (0, 0)

/-- The scalar escape-time loop of src/main.c lines 195-205.  `n` is the
C loop counter, `fuel = max_iter - n` the remaining iterations; the loop
breaks (returning the current `n`) as soon as `zr² + zi² ≥ 4`, and
returns `max_iter` when the counter reaches `max_iter`. -/
def escapeAux (cr ci : ℚ) : ℚ → ℚ → ℕ → ℕ → ℕ
  | _, _, n, 0 => n
  | zr, zi, n, fuel + 1 =>
    if 4 ≤ zr * zr + zi * zi then n
    else escapeAux cr ci (zr * zr - zi * zi + cr) (2 * zr * zi + ci) (n + 1) fuel

/-- ScalarKernel: `escape_iterations(cr, ci, max_iter)`, starting from
`zr = zi = 0`, `n = 0` (src/main.c lines 195-205). -/
def escape_iterations (cr ci : ℚ) (max_iter : ℕ) : ℕ :=
  escapeAux cr ci 0 0 0 max_iter

/-- The SSE2 VectorKernel loop body of src/main.c lines 143-162.  Lane
states `(zr0, zi0)` and `(zr1, zi1)`, per-lane counters `it0`, `it1`;
the lane mask of the source is `_mm_cmplt_pd(mag2, 4)` ("not escaped"),
the loop breaks when the movemask is zero, i.e. when neither lane
satisfies `mag2 < 4` (equivalently `4 ≤ mag2` for both lanes), each
still-active lane's counter gains `1`, and both lanes are updated
uniformly. -/
def vectorAux (cr0 cr1 ci : ℚ) : ℚ → ℚ → ℚ → ℚ → ℕ → ℕ → ℕ → ℕ × ℕ
  | _, _, _, _, it0, it1, 0 => (it0, it1)
  | zr0, zi0, zr1, zi1, it0, it1, fuel + 1 =>
    if 4 ≤ zr0 * zr0 + zi0 * zi0 ∧ 4 ≤ zr1 * zr1 + zi1 * zi1 then (it0, it1)
    else vectorAux cr0 cr1 ci
      (zr0 * zr0 - zi0 * zi0 + cr0) (2 * zr0 * zi0 + ci)
      (zr1 * zr1 - zi1 * zi1 + cr1) (2 * zr1 * zi1 + ci)
      (if zr0 * zr0 + zi0 * zi0 < 4 then it0 + 1 else it0)
      (if zr1 * zr1 + zi1 * zi1 < 4 then it1 + 1 else it1)
      fuel

/-- VectorKernel: the SSE2 batch of src/main.c lines 134-166, lanes
`(cr0, ci)` and `(cr1, ci)`, both starting at `z = 0` with counter `0`,
running for at most `MAX_ITERATIONS` steps. -/
def vectorKernel (cr0 cr1 ci : ℚ) : ℕ × ℕ :=
  vectorAux cr0 cr1 ci 0 0 0 0 0 0 MAX_ITERATIONS

/-- Proof helper: the number of loop steps the scalar loop performs from
state `(zr, zi)` before escape, capped by `fuel`.  `escapeAux` is this
count plus the incoming counter. -/
def scalarCount (cr ci : ℚ) : ℚ → ℚ → ℕ → ℕ
  | _, _, 0 => 0
  | zr, zi, fuel + 1 =>
    if 4 ≤ zr * zr + zi * zi then 0
    else scalarCount cr ci (zr * zr - zi * zi + cr) (2 * zr * zi + ci) fuel + 1

/-- PeriodicityFilter from src/main.c lines 72-83: period-2 bulb test
`(cr+1)² + ci² < 0.0625`, then main cardioid test
`q·(q + (cr - 0.25)) < 0.25·ci²` with `q = (cr - 0.25)² + ci²`.
The literals `0.0625 = 1/16` and `0.25` are exact in `double`. -/
def periodicity_check (cr ci : ℚ) : Bool :=
  if (cr + 1) * (cr + 1) + ci * ci < 0.0625 then true
  else
    let q := (cr - 0.25) * (cr - 0.25) + ci * ci
    if q * (q + (cr - 0.25)) < 0.25 * (ci * ci) then true
    else false

/-- `start_y` of worker `i`, src/main.c line 94 (C `int` division on
nonnegative values is `ℕ` division). -/
def start_y (height num_threads i : ℕ) : ℕ := height / num_threads * i

/-- `end_y` of worker `i`, src/main.c line 95. -/
def end_y (height num_threads i : ℕ) : ℕ := height / num_threads * (i + 1)

/-- The half-open row range `[start_y, end_y)` a worker renders. -/
def rowRange (height num_threads i : ℕ) : Finset ℕ :=
  Finset.Ico (start_y height num_threads i) (end_y height num_threads i)

/-- `aspect_ratio`, src/main.c line 104. -/
def aspect_ratio (width height : ℕ) : ℚ := (width : ℚ) / (height : ℚ)

/-- `x_scale`, src/main.c line 105. -/
def x_scale (width height : ℕ) (zoom : ℚ) : ℚ :=
  4 * aspect_ratio width height * zoom / (width : ℚ)

/-- `y_scale`, src/main.c line 106. -/
def y_scale (width : ℕ) (zoom : ℚ) : ℚ := 4 * zoom / (width : ℚ)

/-- The real part assigned to pixel column `x`: src/main.c lines 123-124
(SIMD path) and 186 (scalar path), both
`center_r + (x - SCREEN_WIDTH / 2.0) * x_scale`. -/
def pixel_cr (width height : ℕ) (zoom center_r : ℚ) (x : ℕ) : ℚ :=
  center_r + ((x : ℚ) - (width : ℚ) / 2) * x_scale width height zoom

/-- The imaginary part assigned to pixel row `y`: src/main.c lines 120
(SIMD path) and 187 (scalar path), both
`center_i + (y - SCREEN_HEIGHT / 2.0) * y_scale`. -/
def pixel_ci (width height : ℕ) (zoom center_i : ℚ) (y : ℕ) : ℚ :=
  center_i + ((y : ℚ) - (height : ℚ) / 2) * y_scale width zoom

/-- The mutable view state of `main`: `center_r`, `center_i`, `zoom`
(src/main.c lines 249-252). -/
structure ViewState where
  center_r : ℚ
  center_i : ℚ
  zoom : ℚ

/-- A left-button click at pixel `(mx, my)`, src/main.c lines 263-275:
both centre coordinates are overwritten with the complex coordinates of
the clicked pixel; `zoom` is not assigned. -/
def applyClick (width height : ℕ) (mx my : ℕ) (s : ViewState) : ViewState :=
  { s with
    center_r := s.center_r +
      ((mx : ℚ) - (width : ℚ) / 2) * (4 * aspect_ratio width height * s.zoom) / (width : ℚ),
    center_i := s.center_i +
      ((my : ℚ) - (height : ℚ) / 2) * (4 * s.zoom) / (width : ℚ) }

/-- The events the main loop reacts to (src/main.c lines 258-277):
`SDL_QUIT` (which only clears `is_running`) and a left-button
`SDL_MOUSEBUTTONDOWN`; every other event is ignored. -/
inductive AppEvent where
  | quit : AppEvent
  | click (x y : ℕ) : AppEvent
  | other : AppEvent

/-- Event handling of one polled event, src/main.c lines 258-277.
Neither branch assigns `zoom`. -/
def handleEvent (width height : ℕ) (s : ViewState) : AppEvent → ViewState
  | .click mx my => applyClick width height mx my s
  | _ => s

/-- `zoom_speed`, src/main.c line 250. -/
def zoom_speed : ℚ := 0.985

/-- One iteration of the main loop before rendering, src/main.c lines
256-279: poll and handle all pending events, then `zoom *= zoom_speed`,
exactly once. -/
def frame (width height : ℕ) (evs : List AppEvent) (s : ViewState) : ViewState :=
  let s' := evs.foldl (handleEvent width height) s
  { s' with zoom := s'.zoom * zoom_speed }

/-- Repeated main-loop iterations, each with its own polled event
batch. -/
def frames (width height : ℕ) : List (List AppEvent) → ViewState → ViewState
  | [], s => s
  | evs :: rest, s => frames width height rest (frame width height evs s)

/-- The initial fractal parameters of src/main.c lines 249-252. -/
def initState : ViewState :=
  { center_r := -0.743643887037151, center_i := 0.131825904205330, zoom := 1 }

/-- C cast of a `double` to `int`: truncation toward zero. -/
noncomputable def ctrunc (x : ℝ) : ℤ := if 0 ≤ x then ⌊x⌋ else -⌊-x⌋

/-- C conversion of an `int` to `unsigned char`: reduction mod 2⁸. -/
def uchar (k : ℤ) : ℤ := k % 256

/-- An RGB colour as stored in the `Color` struct of src/main.c lines
32-36 (each channel an `unsigned char`). -/
structure Color where
  r : ℤ
  g : ℤ
  b : ℤ
deriving DecidableEq

/-- ColorMapper `get_color`, src/main.c lines 54-65: black at or above
`MAX_ITERATIONS`, otherwise phase-shifted sinusoids, each cast to `int`
(truncation toward zero) and stored into an `unsigned char`. -/
noncomputable def get_color (n : ℕ) : Color :=
  if MAX_ITERATIONS ≤ n then { r := 0, g := 0, b := 0 }
  else
    { r := uchar (ctrunc (Real.sin (0.1 * n) * 127 + 128)),
      g := uchar (ctrunc (Real.sin (0.1 * n + 2) * 127 + 128)),
      b := uchar (ctrunc (Real.sin (0.1 * n + 4) * 127 + 128)) }

/-- The column indices the SSE2 row loop writes, src/main.c lines
122-175: `x` advances by 2 from 0 while `x < SCREEN_WIDTH`; in the
periodicity-shortcut branch (lines 129-130) and in the colour branch
(lines 169-173) alike, `row[x]` is written unconditionally (the loop
guard gives `x < SCREEN_WIDTH`) and `row[x+1]` only under the guard
`x + 1 < SCREEN_WIDTH`, so the written indices do not depend on the
branch taken.  `fuel` bounds the number of loop iterations. -/
def simdRowWritesAux (width : ℕ) : ℕ → ℕ → List ℕ
  | _, 0 => []
  | x, fuel + 1 =>
    if x < width then
      (x :: (if x + 1 < width then [x + 1] else [])) ++ simdRowWritesAux width (x + 2) fuel
    else []

/-- All column indices the SSE2 path writes in one row (`width` loop
iterations are more than enough fuel, since `x` grows by 2 each
time). -/
def simdRowWrites (width : ℕ) : List ℕ := simdRowWritesAux width 0 width

lemma escapeAux_eq_scalarCount (cr ci : ℚ) :
    ∀ (fuel : ℕ) (zr zi : ℚ) (n : ℕ),
      escapeAux cr ci zr zi n fuel = n + scalarCount cr ci zr zi fuel := by
  intro fuel
  induction fuel with
  | zero => intro zr zi n; rfl
  | succ fuel ih =>
    intro zr zi n
    by_cases h : 4 ≤ zr * zr + zi * zi
    · simp [escapeAux, scalarCount, h]
    · simp only [escapeAux, scalarCount, if_neg h, ih]
      omega

lemma scalarCount_escaped (cr ci zr zi : ℚ) (h : 4 ≤ zr * zr + zi * zi) :
    ∀ fuel, scalarCount cr ci zr zi fuel = 0 := by
  intro fuel
  cases fuel with
  | zero => rfl
  | succ fuel => simp [scalarCount, h]

/-- Abstract persistence certificate.  `m` plays the role of `|z|²`, `g`
of `|c|²`, `R` of `Re(z²·conj c)`; the next squared magnitude is
`m² + 2R + g`.  If `m ≥ 4` and `m ≥ g` then the next state again has
squared magnitude `≥ 4` and `≥ g`. -/
lemma persist_abstract (m g R : ℚ) (hm : 4 ≤ m) (hg0 : 0 ≤ g) (hgm : g ≤ m)
    (hCS : R ^ 2 ≤ m ^ 2 * g) :
    4 ≤ m ^ 2 + 2 * R + g ∧ g ≤ m ^ 2 + 2 * R + g := by
  have hm0 : (0 : ℚ) < m := by linarith
  have h4g : 4 * g ≤ m ^ 2 := by
    nlinarith [mul_nonneg hg0 (sub_nonneg.mpr hm), mul_nonneg hm0.le (sub_nonneg.mpr hgm)]
  have hsq : (2 * R) ^ 2 ≤ (m ^ 2) ^ 2 := by
    nlinarith [mul_le_mul_of_nonneg_left h4g (sq_nonneg m)]
  have hR : -(m ^ 2) ≤ 2 * R := by
    nlinarith [sq_nonneg (2 * R + m ^ 2), sq_nonneg m]
  have hkey : 2 * m ≤ m ^ 2 + R := by
    nlinarith [mul_nonneg hm0.le (sub_nonneg.mpr hm)]
  have hsq2 : (2 * m) ^ 2 ≤ (m ^ 2 + R) ^ 2 := by
    have h2m : (0 : ℚ) ≤ 2 * m := by linarith
    nlinarith [mul_le_mul hkey hkey h2m (by linarith : (0 : ℚ) ≤ m ^ 2 + R)]
  have hX : 0 ≤ m ^ 2 * (m ^ 2 + 2 * R + g - 4) := by nlinarith [hsq2, hCS]
  have hm2 : (0 : ℚ) < m ^ 2 := by positivity
  constructor
  · nlinarith [hX, hm2]
  · linarith

/-- Once the orbit has `|z|² ≥ 4` and `|z|² ≥ |c|²`, one Mandelbrot step
preserves both bounds (so an escaped lane stays escaped). -/
lemma escape_persists (cr ci : ℚ) (p : ℚ × ℚ)
    (h4 : 4 ≤ mag2 p) (hg : cr * cr + ci * ci ≤ mag2 p) :
    4 ≤ mag2 (mandelStep cr ci p) ∧
      cr * cr + ci * ci ≤ mag2 (mandelStep cr ci p) := by
  obtain ⟨zr, zi⟩ := p
  simp only [mag2] at h4 hg
  have hid : mag2 (mandelStep cr ci (zr, zi)) =
      (zr * zr + zi * zi) ^ 2 +
        2 * ((zr * zr - zi * zi) * cr + 2 * zr * zi * ci) + (cr * cr + ci * ci) := by
    simp only [mag2, mandelStep]
    ring
  have hCS : ((zr * zr - zi * zi) * cr + 2 * zr * zi * ci) ^ 2 ≤
      (zr * zr + zi * zi) ^ 2 * (cr * cr + ci * ci) := by
    nlinarith [sq_nonneg ((zr * zr - zi * zi) * ci - 2 * zr * zi * cr)]
  have hg0 : (0 : ℚ) ≤ cr * cr + ci * ci :=
    add_nonneg (mul_self_nonneg cr) (mul_self_nonneg ci)
  have := persist_abstract (zr * zr + zi * zi) (cr * cr + ci * ci)
    ((zr * zr - zi * zi) * cr + 2 * zr * zi * ci) h4 hg0 hg hCS
  rw [hid]
  exact this

lemma orbit_succ (cr ci : ℚ) (n : ℕ) :
    orbit cr ci (n + 1) = mandelStep cr ci (orbit cr ci n) :=
  Function.iterate_succ_apply' (mandelStep cr ci) n (0, 0)

lemma mag2_orbit (cr ci : ℚ) (n : ℕ) :
    mag2 (orbit cr ci n) = (orbit cr ci n).1 * (orbit cr ci n).1 +
      (orbit cr ci n).2 * (orbit cr ci n).2 := rfl

/-- When `|c|² > 4` every orbit point after the first update satisfies
the persistent escape bounds (the first update sends `0` to `c`). -/
lemma orbit_escaped_of_large (cr ci : ℚ) (hc : 4 < cr * cr + ci * ci) :
    ∀ n, 4 ≤ mag2 (orbit cr ci (n + 1)) ∧
      cr * cr + ci * ci ≤ mag2 (orbit cr ci (n + 1)) := by
  intro n
  induction n with
  | zero =>
    have h1 : orbit cr ci 1 = (cr, ci) := by
      rw [orbit_succ]
      simp [orbit, mandelStep]
    rw [h1]
    constructor
    · simpa [mag2] using hc.le
    · simp [mag2]
  | succ n ih =>
    obtain ⟨h4, hg⟩ := ih
    rw [orbit_succ]
    exact escape_persists cr ci (orbit cr ci (n + 1)) h4 hg

/-- Escape along the orbit of `0` is monotone: once `|z|² ≥ 4` it stays
`≥ 4` at every later step. -/
lemma esc_mono (cr ci : ℚ) (n : ℕ) (h : 4 ≤ mag2 (orbit cr ci n)) :
    4 ≤ mag2 (orbit cr ci (n + 1)) := by
  rcases le_or_lt (cr * cr + ci * ci) 4 with hc | hc
  · have hg : cr * cr + ci * ci ≤ mag2 (orbit cr ci n) := le_trans hc h
    rw [orbit_succ]
    exact (escape_persists cr ci (orbit cr ci n) h hg).1
  · exact (orbit_escaped_of_large cr ci hc n).1

lemma orbit_zero (cr ci : ℚ) : orbit cr ci 0 = (0, 0) := rfl

/-- The SSE2 loop, started at orbit position `k` of both lanes with
accumulated counters `it0`, `it1`, adds exactly the scalar loop's
remaining step counts: escaped lanes stay escaped (`esc_mono`), so the
uniform update and the early break never change a frozen counter. -/
lemma vectorAux_orbit (cr0 cr1 ci : ℚ) :
    ∀ (fuel k it0 it1 : ℕ),
      vectorAux cr0 cr1 ci (orbit cr0 ci k).1 (orbit cr0 ci k).2
          (orbit cr1 ci k).1 (orbit cr1 ci k).2 it0 it1 fuel
        = (it0 + scalarCount cr0 ci (orbit cr0 ci k).1 (orbit cr0 ci k).2 fuel,
           it1 + scalarCount cr1 ci (orbit cr1 ci k).1 (orbit cr1 ci k).2 fuel) := by
  intro fuel
  induction fuel with
  | zero => intro k it0 it1; simp [vectorAux, scalarCount]
  | succ fuel ih =>
    intro k it0 it1
    have e0 : (orbit cr0 ci (k + 1)).1 =
        (orbit cr0 ci k).1 * (orbit cr0 ci k).1 -
          (orbit cr0 ci k).2 * (orbit cr0 ci k).2 + cr0 := by
      rw [orbit_succ]; rfl
    have e0' : (orbit cr0 ci (k + 1)).2 =
        2 * (orbit cr0 ci k).1 * (orbit cr0 ci k).2 + ci := by
      rw [orbit_succ]; simp [mandelStep]
    have e1 : (orbit cr1 ci (k + 1)).1 =
        (orbit cr1 ci k).1 * (orbit cr1 ci k).1 -
          (orbit cr1 ci k).2 * (orbit cr1 ci k).2 + cr1 := by
      rw [orbit_succ]; rfl
    have e1' : (orbit cr1 ci (k + 1)).2 =
        2 * (orbit cr1 ci k).1 * (orbit cr1 ci k).2 + ci := by
      rw [orbit_succ]; simp [mandelStep]
    by_cases h0 : 4 ≤ (orbit cr0 ci k).1 * (orbit cr0 ci k).1 +
        (orbit cr0 ci k).2 * (orbit cr0 ci k).2
    · by_cases h1 : 4 ≤ (orbit cr1 ci k).1 * (orbit cr1 ci k).1 +
          (orbit cr1 ci k).2 * (orbit cr1 ci k).2
      · -- both lanes escaped: the vector loop breaks, both counts are 0
        simp [vectorAux, scalarCount, h0, h1]
      · -- lane 0 escaped, lane 1 active
        have hm0 : ¬ ((orbit cr0 ci k).1 * (orbit cr0 ci k).1 +
            (orbit cr0 ci k).2 * (orbit cr0 ci k).2 < 4) := not_lt.mpr h0
        have hnext0 : 4 ≤ (orbit cr0 ci (k + 1)).1 * (orbit cr0 ci (k + 1)).1 +
            (orbit cr0 ci (k + 1)).2 * (orbit cr0 ci (k + 1)).2 := by
          have := esc_mono cr0 ci k (by rw [mag2_orbit]; exact h0)
          rwa [mag2_orbit] at this
        have hsc0 : scalarCount cr0 ci (orbit cr0 ci (k + 1)).1
            (orbit cr0 ci (k + 1)).2 fuel = 0 :=
          scalarCount_escaped _ _ _ _ hnext0 fuel
        have hcond : ¬ (4 ≤ (orbit cr0 ci k).1 * (orbit cr0 ci k).1 +
            (orbit cr0 ci k).2 * (orbit cr0 ci k).2 ∧
            4 ≤ (orbit cr1 ci k).1 * (orbit cr1 ci k).1 +
              (orbit cr1 ci k).2 * (orbit cr1 ci k).2) := fun hc => h1 hc.2
        simp only [vectorAux, scalarCount, if_neg hcond,
          if_pos h0, if_neg h1, if_neg hm0, if_pos (not_le.mp h1)]
        rw [← e0, ← e0', ← e1, ← e1', ih (k + 1), hsc0]
        simp only [Prod.mk.injEq]
        exact ⟨trivial, by ring⟩
    · have hm0 : (orbit cr0 ci k).1 * (orbit cr0 ci k).1 +
          (orbit cr0 ci k).2 * (orbit cr0 ci k).2 < 4 := not_le.mp h0
      by_cases h1 : 4 ≤ (orbit cr1 ci k).1 * (orbit cr1 ci k).1 +
          (orbit cr1 ci k).2 * (orbit cr1 ci k).2
      · -- lane 0 active, lane 1 escaped
        have hnext1 : 4 ≤ (orbit cr1 ci (k + 1)).1 * (orbit cr1 ci (k + 1)).1 +
            (orbit cr1 ci (k + 1)).2 * (orbit cr1 ci (k + 1)).2 := by
          have := esc_mono cr1 ci k (by rw [mag2_orbit]; exact h1)
          rwa [mag2_orbit] at this
        have hsc1 : scalarCount cr1 ci (orbit cr1 ci (k + 1)).1
            (orbit cr1 ci (k + 1)).2 fuel = 0 :=
          scalarCount_escaped _ _ _ _ hnext1 fuel
        have hcond : ¬ (4 ≤ (orbit cr0 ci k).1 * (orbit cr0 ci k).1 +
            (orbit cr0 ci k).2 * (orbit cr0 ci k).2 ∧
            4 ≤ (orbit cr1 ci k).1 * (orbit cr1 ci k).1 +
              (orbit cr1 ci k).2 * (orbit cr1 ci k).2) := fun hc => h0 hc.1
        simp only [vectorAux, scalarCount, if_neg hcond,
          if_neg h0, if_pos h1, if_pos hm0, if_neg (not_lt.mpr h1)]
        rw [← e0, ← e0', ← e1, ← e1', ih (k + 1), hsc1]
        simp only [Prod.mk.injEq]
        exact ⟨by ring, trivial⟩
      · -- both lanes active
        have hm1 : (orbit cr1 ci k).1 * (orbit cr1 ci k).1 +
            (orbit cr1 ci k).2 * (orbit cr1 ci k).2 < 4 := not_le.mp h1
        have hcond : ¬ (4 ≤ (orbit cr0 ci k).1 * (orbit cr0 ci k).1 +
            (orbit cr0 ci k).2 * (orbit cr0 ci k).2 ∧
            4 ≤ (orbit cr1 ci k).1 * (orbit cr1 ci k).1 +
              (orbit cr1 ci k).2 * (orbit cr1 ci k).2) := fun hc => h0 hc.1
        simp only [vectorAux, scalarCount, if_neg hcond,
          if_neg h0, if_neg h1, if_pos hm0, if_pos hm1]
        rw [← e0, ← e0', ← e1, ← e1', ih (k + 1)]
        simp only [Prod.mk.injEq]
        omega

/-- C1: for every complex point and each lane of the 2-wide batch, the
SSE2 VectorKernel loop produces exactly the IterationCount that
ScalarKernel's escape-time loop returns for the same `(cr, ci)` with
`max_iter = MAX_ITERATIONS = 255`. -/
theorem vectorKernel_eq_scalarKernel (cr0 cr1 ci : ℚ) :
    vectorKernel cr0 cr1 ci =
      (escape_iterations cr0 ci MAX_ITERATIONS,
       escape_iterations cr1 ci MAX_ITERATIONS) := by
  have h := vectorAux_orbit cr0 cr1 ci MAX_ITERATIONS 0 0 0
  simp only [orbit_zero] at h
  unfold vectorKernel escape_iterations
  rw [escapeAux_eq_scalarCount, escapeAux_eq_scalarCount]
  simpa using h

lemma escapeAux_succ (cr ci zr zi : ℚ) (n fuel : ℕ) :
    escapeAux cr ci zr zi n (fuel + 1) =
      if 4 ≤ zr * zr + zi * zi then n
      else escapeAux cr ci (zr * zr - zi * zi + cr) (2 * zr * zi + ci) (n + 1) fuel := rfl

lemma escapeAux_origin : ∀ (fuel n : ℕ), escapeAux 0 0 0 0 n fuel = n + fuel := by
  intro fuel
  induction fuel with
  | zero => intro n; rfl
  | succ fuel ih =>
    intro n
    rw [escapeAux_succ, if_neg (by norm_num : ¬ ((4 : ℚ) ≤ 0 * 0 + 0 * 0)),
      show (0 : ℚ) * 0 - 0 * 0 + 0 = 0 by ring, show 2 * (0 : ℚ) * 0 + 0 = 0 by ring, ih]
    omega

/-- C8: `escape_iterations(0, 0, max_iter)` returns exactly `max_iter`:
with `cr = ci = 0` the iterate stays at `0`, `zr² + zi²` never reaches
`4`, and the loop runs to the iteration limit. -/
theorem escape_iterations_origin (max_iter : ℕ) :
    escape_iterations 0 0 max_iter = max_iter := by
  unfold escape_iterations
  rw [escapeAux_origin]
  omega

/-- C5 counterexample: the code returns `1` at `(2, 0)` (the loop
counter is incremented for the first update `z ← c` before escape is
detected), not `0` as the claim states. -/
theorem escape_iterations_two_zero_ne_zero :
    escape_iterations 2 0 255 = 1 ∧ escape_iterations 2 0 255 ≠ 0 := by
  have h : escape_iterations 2 0 255 = 1 := by
    unfold escape_iterations
    rw [show (255 : ℕ) = 254 + 1 from rfl, escapeAux_succ,
      if_neg (by norm_num : ¬ ((4 : ℚ) ≤ 0 * 0 + 0 * 0)),
      show (0 : ℚ) * 0 - 0 * 0 + 2 = 2 by ring, show 2 * (0 : ℚ) * 0 + 0 = 0 by ring,
      show (254 : ℕ) = 253 + 1 from rfl, escapeAux_succ,
      if_pos (by norm_num : (4 : ℚ) ≤ 2 * 2 + 0 * 0)]
  exact ⟨h, by omega⟩

/-- C5 (amended): for every `(cr, ci)` with `cr² + ci² > 4` and every
`max_iter ≥ 2`, the escape-time loop performs exactly one update
(`z₁ = c`, which is already outside the radius-2 circle) and returns
the counter `1`, which is strictly less than `max_iter`. -/
theorem escape_iterations_far_point (cr ci : ℚ) (max_iter : ℕ)
    (hm : 2 ≤ max_iter) (hc : 4 < cr * cr + ci * ci) :
    escape_iterations cr ci max_iter = 1 ∧ 1 < max_iter := by
  obtain ⟨m, rfl⟩ : ∃ m, max_iter = m + 2 := ⟨max_iter - 2, by omega⟩
  refine ⟨?_, by omega⟩
  unfold escape_iterations
  rw [show m + 2 = (m + 1) + 1 from rfl, escapeAux_succ,
    if_neg (by norm_num : ¬ ((4 : ℚ) ≤ 0 * 0 + 0 * 0)),
    show (0 : ℚ) * 0 - 0 * 0 + cr = cr by ring, show 2 * (0 : ℚ) * 0 + ci = ci by ring,
    escapeAux_succ, if_pos hc.le]

/-- C5 witness: the amended theorem applied at `(3, 0)` with
`max_iter = 255`. -/
theorem escape_iterations_far_point_witness :
    (2 ≤ 255 ∧ (4 : ℚ) < 3 * 3 + 0 * 0) ∧
      escape_iterations 3 0 255 = 1 ∧ 1 < 255 :=
  ⟨⟨by norm_num, by norm_num⟩,
    escape_iterations_far_point 3 0 255 (by norm_num) (by norm_num)⟩

/-- C6: the renderer's pixel-to-complex mapping is exactly the spec
formula `cr = center_r + (x - width/2)·(4·aspect·zoom/width)`,
`ci = center_i + (y - height/2)·(4·zoom/width)` with
`aspect = width/height`; both scales share the divisor `width`, so
`x_scale` is exactly `aspect · y_scale` — the per-pixel linear scale is
the same on both axes and only `x_scale` carries the aspect
correction. -/
theorem pixel_mapping_formula (width height : ℕ) (zoom center_r center_i : ℚ)
    (x y : ℕ) :
    pixel_cr width height zoom center_r x =
      center_r + ((x : ℚ) - (width : ℚ) / 2) *
        (4 * ((width : ℚ) / (height : ℚ)) * zoom / (width : ℚ)) ∧
    pixel_ci width height zoom center_i y =
      center_i + ((y : ℚ) - (height : ℚ) / 2) * (4 * zoom / (width : ℚ)) ∧
    x_scale width height zoom = aspect_ratio width height * y_scale width zoom := by
  refine ⟨rfl, rfl, ?_⟩
  unfold x_scale y_scale aspect_ratio
  ring

/-- C4 counterexample: with `zoom = 1`, `width = 800`, `height = 600`
and centre `(0, 0)`, a primary click at pixel `(0, 0)` does not produce
the centre `(0 - 1.9975·aspect, 0 - 1.9975)` the claim states (the code
yields `(-8/3, -3/2)`). -/
theorem applyClick_origin_ne_claimed :
    applyClick 800 600 0 0 { center_r := 0, center_i := 0, zoom := 1 } ≠
      { center_r := 0 - 19975 / 10000 * (800 / 600 : ℚ),
        center_i := 0 - 19975 / 10000, zoom := 1 } := by
  intro h
  have hi := congrArg ViewState.center_i h
  simp only [applyClick] at hi
  norm_num at hi

/-- C4 (amended): a primary click at pixel `(0, 0)` with `zoom = 1`,
`width = 800`, `height = 600` overwrites the centre with the
ViewportMapper image of that pixel, `(center_r - 2·aspect, center_i - 3/2)`
where `aspect = 4/3` (so `center_r - 8/3`), and leaves `zoom`
unchanged. -/
theorem applyClick_origin (cr ci : ℚ) :
    applyClick 800 600 0 0 { center_r := cr, center_i := ci, zoom := 1 } =
      { center_r := cr - 8 / 3, center_i := ci - 3 / 2, zoom := 1 } := by
  simp only [applyClick, aspect_ratio, ViewState.mk.injEq]
  norm_num
  constructor <;> ring

lemma handleEvent_zoom (width height : ℕ) (s : ViewState) (ev : AppEvent) :
    (handleEvent width height s ev).zoom = s.zoom := by
  cases ev <;> rfl

lemma foldl_handleEvent_zoom (width height : ℕ) :
    ∀ (evs : List AppEvent) (s : ViewState),
      (evs.foldl (handleEvent width height) s).zoom = s.zoom := by
  intro evs
  induction evs with
  | nil => intro s; rfl
  | cons ev evs ih =>
    intro s
    rw [List.foldl_cons, ih, handleEvent_zoom]

lemma frame_zoom (width height : ℕ) (evs : List AppEvent) (s : ViewState) :
    (frame width height evs s).zoom = s.zoom * zoom_speed := by
  show (List.foldl (handleEvent width height) s evs).zoom * zoom_speed = s.zoom * zoom_speed
  rw [foldl_handleEvent_zoom]

lemma frames_zoom (width height : ℕ) :
    ∀ (evss : List (List AppEvent)) (s : ViewState),
      (frames width height evss s).zoom = s.zoom * zoom_speed ^ evss.length := by
  intro evss
  induction evss with
  | nil => intro s; simp [frames]
  | cons evs evss ih =>
    intro s
    rw [frames, ih, frame_zoom, List.length_cons]
    ring

/-- C10: starting from the initial state (`zoom = 1`), after any number
of main-loop iterations with any polled events (clicks rewrite only the
centre), the zoom is exactly `0.985 ^ frames`, hence strictly positive,
and the next frame's zoom is strictly smaller: zoom decreases forever
but never reaches zero or below. -/
theorem zoom_stays_positive (width height : ℕ) (evss : List (List AppEvent))
    (evs : List AppEvent) :
    (frames width height evss initState).zoom = zoom_speed ^ evss.length ∧
    0 < (frames width height evss initState).zoom ∧
    (frame width height evs (frames width height evss initState)).zoom <
      (frames width height evss initState).zoom := by
  have hz : (frames width height evss initState).zoom = zoom_speed ^ evss.length := by
    rw [frames_zoom]
    simp [initState]
  have hpos : 0 < (frames width height evss initState).zoom := by
    rw [hz]
    exact pow_pos (by norm_num [zoom_speed]) _
  refine ⟨hz, hpos, ?_⟩
  rw [frame_zoom]
  have hlt : zoom_speed < 1 := by norm_num [zoom_speed]
  calc (frames width height evss initState).zoom * zoom_speed
      < (frames width height evss initState).zoom * 1 := by
        exact mul_lt_mul_of_pos_left hlt hpos
    _ = (frames width height evss initState).zoom := mul_one _

/-- A sinusoid channel `sin θ · 127 + 128`, truncated toward zero and
stored into an `unsigned char`, always lands in `[1, 255]`. -/
lemma uchar_ctrunc_sin_channel (θ : ℝ) :
    1 ≤ uchar (ctrunc (Real.sin θ * 127 + 128)) ∧
      uchar (ctrunc (Real.sin θ * 127 + 128)) ≤ 255 := by
  have hlo : (1 : ℝ) ≤ Real.sin θ * 127 + 128 := by
    nlinarith [Real.neg_one_le_sin θ]
  have hhi : Real.sin θ * 127 + 128 ≤ 255 := by
    nlinarith [Real.sin_le_one θ]
  have h0 : (0 : ℝ) ≤ Real.sin θ * 127 + 128 := by linarith
  have hct : ctrunc (Real.sin θ * 127 + 128) = ⌊Real.sin θ * 127 + 128⌋ := if_pos h0
  have h1 : (1 : ℤ) ≤ ⌊Real.sin θ * 127 + 128⌋ := by
    rw [Int.le_floor]
    exact_mod_cast hlo
  have h255 : ⌊Real.sin θ * 127 + 128⌋ ≤ 255 := by
    have := Int.floor_le_floor hhi
    simpa using this
  have huc : uchar (ctrunc (Real.sin θ * 127 + 128)) = ⌊Real.sin θ * 127 + 128⌋ := by
    rw [uchar, hct]
    exact Int.emod_eq_of_lt (by linarith) (by linarith)
  rw [huc]
  exact ⟨h1, h255⟩

/-- C7: `get_color(n)` is black `(0,0,0)` for every `n ≥ MAX_ITERATIONS`,
and for every `n < MAX_ITERATIONS` each channel — a phase-shifted
sinusoid scaled to `sin·127 + 128` and truncated toward zero into an
8-bit unsigned integer — lies in `[1, 255]`. -/
theorem get_color_spec (n : ℕ) :
    (MAX_ITERATIONS ≤ n → get_color n = { r := 0, g := 0, b := 0 }) ∧
    (n < MAX_ITERATIONS →
      (1 ≤ (get_color n).r ∧ (get_color n).r ≤ 255) ∧
      (1 ≤ (get_color n).g ∧ (get_color n).g ≤ 255) ∧
      (1 ≤ (get_color n).b ∧ (get_color n).b ≤ 255)) := by
  constructor
  · intro h
    rw [get_color, if_pos h]
  · intro h
    rw [get_color, if_neg (by omega)]
    exact ⟨uchar_ctrunc_sin_channel _, uchar_ctrunc_sin_channel _,
      uchar_ctrunc_sin_channel _⟩

/-- C7 witness: the theorem applied at `n = 255` (black) and at `n = 0`
(channels in range). -/
theorem get_color_spec_witness :
    (MAX_ITERATIONS ≤ 255 ∧ get_color 255 = { r := 0, g := 0, b := 0 }) ∧
      (0 < MAX_ITERATIONS ∧ 1 ≤ (get_color 0).r ∧ (get_color 0).r ≤ 255) :=
  ⟨⟨by norm_num [MAX_ITERATIONS], (get_color_spec 255).1 (by norm_num [MAX_ITERATIONS])⟩,
    ⟨by norm_num [MAX_ITERATIONS],
      (((get_color_spec 0).2 (by norm_num [MAX_ITERATIONS])).1).1,
      (((get_color_spec 0).2 (by norm_num [MAX_ITERATIONS])).1).2⟩⟩

/-- The concrete PeriodicityFilter checks of the spec: `(-1, 0)` (the
centre of the period-2 bulb) passes the bulb test. -/
theorem periodicity_check_neg_one_zero : periodicity_check (-1) 0 = true := by
  rw [periodicity_check, if_pos (by norm_num)]

/-- The concrete PeriodicityFilter checks of the spec: `(2, 2)` (far
outside the set) fails both tests. -/
theorem periodicity_check_two_two : periodicity_check 2 2 = false := by
  rw [periodicity_check, if_neg (by norm_num)]
  norm_num

/-- C3: the row partition as coded.  With `height = 601` and
`num_workers = 4` every worker's range ends at or before row `600`
(`rows_per_worker = 150`, ranges `[0,150), [150,300), [300,450),
[450,600)`), so row `600` — a row of the frame — is assigned to no
worker: the union of the ranges is not `[0, height)`.  With the evenly
divisible `height = 600` the four ranges do cover `[0, 600)`
exactly. -/
theorem rowRanges_drop_rows_601 :
    600 ∉ (Finset.range 4).biUnion (rowRange 601 4) ∧
    600 ∈ Finset.Ico 0 601 ∧
    (Finset.range 4).biUnion (rowRange 600 4) = Finset.Ico 0 600 := by
  refine ⟨?_, by simp, ?_⟩
  · simp only [Finset.mem_biUnion, Finset.mem_range, rowRange, Finset.mem_Ico,
      start_y, end_y]
    push_neg
    intro i hi h1
    interval_cases i <;> norm_num
  · ext y
    simp only [Finset.mem_biUnion, Finset.mem_range, rowRange, Finset.mem_Ico,
      start_y, end_y]
    constructor
    · rintro ⟨i, hi, h1, h2⟩
      omega
    · intro hy
      exact ⟨y / 150, by omega, by omega, by omega⟩

/-- Worker row ranges never overlap: a row in both worker `i`'s and
worker `j`'s range forces `i = j` (the ranges are consecutive multiples
of `height / num_threads`). -/
theorem rowRange_disjoint (height num_threads i j y : ℕ)
    (hi : y ∈ rowRange height num_threads i) (hj : y ∈ rowRange height num_threads j) :
    i = j := by
  simp only [rowRange, Finset.mem_Ico, start_y, end_y] at hi hj
  by_contra hne
  rcases Nat.lt_or_ge i j with hlt | hge
  · have hk : height / num_threads * (i + 1) ≤ height / num_threads * j :=
      Nat.mul_le_mul_left _ hlt
    omega
  · have hgt : j < i := by omega
    have hk : height / num_threads * (j + 1) ≤ height / num_threads * i :=
      Nat.mul_le_mul_left _ hgt
    omega

lemma mem_simdRowWritesAux_lt (width : ℕ) :
    ∀ (fuel x i : ℕ), i ∈ simdRowWritesAux width x fuel → i < width := by
  intro fuel
  induction fuel with
  | zero => intro x i h; simp [simdRowWritesAux] at h
  | succ fuel ih =>
    intro x i h
    rw [simdRowWritesAux] at h
    by_cases hx : x < width
    · rw [if_pos hx] at h
      rcases List.mem_append.mp h with h | h
      · rcases List.mem_cons.mp h with rfl | h
        · exact hx
        · by_cases hx1 : x + 1 < width
          · rw [if_pos hx1] at h
            rcases List.mem_singleton.mp h with rfl
            exact hx1
          · rw [if_neg hx1] at h
            simp at h
      · exact ih (x + 2) i h
    · rw [if_neg hx] at h
      simp at h

/-- C9: every column index the SSE2 row loop writes — `row[x]` under
the loop guard `x < width`, `row[x+1]` under the explicit guard
`x + 1 < width`, in both the periodicity-shortcut branch and the colour
branch — lies in `[0, width)`, for every width including odd ones; the
out-of-range second lane's result is discarded rather than written. -/
theorem simdRowWrites_in_bounds (width i : ℕ) (h : i ∈ simdRowWrites width) :
    i < width :=
  mem_simdRowWritesAux_lt width width 0 i h

/-- C9 witness: for the odd width `3` the written indices include `1`,
and the theorem bounds it by `3`. -/
theorem simdRowWrites_in_bounds_witness :
    1 ∈ simdRowWrites 3 ∧ 1 < 3 :=
  ⟨by decide, simdRowWrites_in_bounds 3 1 (by decide)⟩
